import Mathlib

/-!
# Verification of the BrainBuddy daily schedule generator

A shallow embedding, in Lean 4, of the algorithmic core of the BrainBuddy
task-management application:

* `src/algorithms/TaskScoring.ts` — the task scoring engine
  (`calculateTaskScore`, `calculateUrgencyScore`, `calculateCognitiveScore`,
  `calculateDeadlineScore`);
* `src/algorithms/ScheduleGenerator.ts` — the schedule generator
  (`generateScheduleOptions`, `generateDailySchedules`,
  `prepareTimeBlocksFromStartTime`, `prepareTimeBlocks`,
  `generatePriorityBasedSchedule`, `sortTasksByTimeOfDay`,
  `balanceTaskCategories`, `groupSimilarTasks`, `shuffleArray`,
  `addRandomnessToScores`).

Modelling conventions:

* JavaScript numbers are embedded as exact rationals (`ℚ`) where fractional
  arithmetic occurs (scores, complexity factors) and as integers (`ℤ`) where
  the program only ever holds integral values (epoch milliseconds, minutes).
* A JavaScript `Date` is its epoch-millisecond value (`ℤ`).  `Date.getHours`
  is modelled as the UTC hour of day.  The `DateType` union of the source
  (`Date | Timestamp | FieldValue | null`) is modelled as `Option ℤ`:
  `convertToDate` maps both `Date` and `Timestamp` to the same instant, so
  the union collapses to "an instant or nothing".
* `Math.random()` draws are modelled by explicit streams: a stream
  `rand : ℕ → ℕ` feeding the Fisher–Yates shuffle (the source computes
  `Math.floor(Math.random() * (i + 1))`, i.e. an arbitrary index in
  `[0, i]`, modelled as `rand k % (i + 1)`), and a stream `noise : ℕ → ℚ`
  feeding the score jitter (the source computes `Math.random() * 2 - 1`
  from a fresh draw, modelled as `noise k * 2 - 1` from a fresh position).
* `generateUniqueId()` (random) and `new Date()` (clock) are threaded as
  explicit parameters `ids : ℕ → String` and `now : ℤ`.
* Structure fields never read by the algorithms (titles, notification
  preferences, recurrence, …) are omitted.
-/

namespace BrainBuddy

/-- Time-of-day labels, from `TaskScoring.ts` (`enum TimeOfDay`). -/
inductive TimeOfDay where
  | morning
  | evening
deriving DecidableEq, Repr

/-- The fields of `Task` (from `src/models/Task.ts`) read by the scheduling
core.  `deadline : Option ℤ` is the epoch-millisecond instant, `none` for a
missing deadline. -/
structure Task where
  id : String
  urgency : ℚ
  difficulty : ℚ
  durationMinutes : ℤ
  deadline : Option ℤ
  tags : List String
deriving DecidableEq, Repr

/-- The fields of `UserPreferences` (from `src/models/Task.ts`) read by the
scheduling core. -/
structure UserPreferences where
  userId : String
  morningComplexFactor : ℚ
  eveningComplexFactor : ℚ
  morningAvailableTime : ℤ
  eveningAvailableTime : ℤ
deriving DecidableEq, Repr

/-- `ScheduledTask` (from `src/models/Task.ts`): a task placed in a concrete
slot.  Times are epoch milliseconds. -/
structure ScheduledTask where
  taskId : String
  startTime : ℤ
  endTime : ℤ
  completed : Bool
deriving DecidableEq, Repr

/-- `ScheduleOption` (from `src/models/Task.ts`). -/
structure ScheduleOption where
  id : String
  userId : String
  date : ℤ
  tasks : List ScheduledTask
  totalScore : ℚ
  selected : Bool
  createdAt : ℤ
deriving DecidableEq, Repr

/-! ## TaskScoring.ts -/

/-- `URGENCY_WEIGHT = 0.45`. -/
def URGENCY_WEIGHT : ℚ := 45 / 100

/-- `COGNITIVE_WEIGHT = 0.35`. -/
def COGNITIVE_WEIGHT : ℚ := 35 / 100

/-- `DEADLINE_WEIGHT = 0.20`. -/
def DEADLINE_WEIGHT : ℚ := 20 / 100

/-- `calculateUrgencyScore`: linear scaling `urgency * 20`. -/
def calculateUrgencyScore (urgency : ℚ) : ℚ := urgency * 20

/-- `calculateCognitiveScore`: alignment between task difficulty and the
time-of-day complexity factor.  `1.5 = 3/2`. -/
def calculateCognitiveScore (difficulty : ℚ) (userPrefs : UserPreferences)
    (timeOfDay : TimeOfDay) : ℚ :=
  let complexFactor : ℚ :=
    match timeOfDay with
    | TimeOfDay.morning => userPrefs.morningComplexFactor
    | TimeOfDay.evening => userPrefs.eveningComplexFactor
  let normalizedDifficulty := difficulty / 5
  100 - |normalizedDifficulty - complexFactor / (3 / 2)| * 100

/-- `calculateDeadlineScore`: hyperbolic decay in the hours until the
deadline, measured from `now` (epoch ms).  `null` deadline contributes 0;
`1000 * 60 * 60 = 3600000`; `0.01 = 1/100`. -/
def calculateDeadlineScore (now : ℤ) (deadline : Option ℤ) : ℚ :=
  match deadline with
  | none => 0
  | some d =>
      let hoursUntilDeadline : ℚ := max 0 (((d : ℚ) - (now : ℚ)) / 3600000)
      100 * (1 / (1 + (1 / 100) * hoursUntilDeadline))

/-- `calculateTaskScore`: the weighted sum of the three components, clamped
into `[0, 100]` (`Math.min(100, Math.max(0, totalScore))`). -/
def calculateTaskScore (now : ℤ) (task : Task) (userPrefs : UserPreferences)
    (timeOfDay : TimeOfDay) : ℚ :=
  let urgencyScore := calculateUrgencyScore task.urgency
  let cognitiveScore := calculateCognitiveScore task.difficulty userPrefs timeOfDay
  let deadlineScore := calculateDeadlineScore now task.deadline
  let totalScore :=
    urgencyScore * URGENCY_WEIGHT +
    cognitiveScore * COGNITIVE_WEIGHT +
    deadlineScore * DEADLINE_WEIGHT
  min 100 (max 0 totalScore)

/-! ## ScheduleGenerator.ts -/

/-- `ScoredTask`: a task with its pre-computed morning and evening scores. -/
structure ScoredTask where
  task : Task
  morningScore : ℚ
  eveningScore : ℚ
deriving DecidableEq, Repr

/-- `TimeBlock`: a contiguous scheduling window (times in epoch ms). -/
structure TimeBlock where
  timeOfDay : TimeOfDay
  startTime : ℤ
  endTime : ℤ
  availableMinutes : ℤ
deriving DecidableEq, Repr

/-- One Fisher–Yates step:
`[result[i], result[j]] = [result[j], result[i]]`. -/
def swapIdx {α : Type _} (l : List α) (i j : ℕ) : List α :=
  if h : i < l.length ∧ j < l.length then
    (l.set i (l.get ⟨j, h.2⟩)).set j (l.get ⟨i, h.1⟩)
  else l

/-- The `shuffleArray` loop, indices `i` down to `1`, one random draw per
step; the draw `Math.floor(Math.random() * (i + 1))` (a value in `[0, i]`)
is modelled as `rand k % (i + 1)` from the stream position `k`. -/
def fisherYates {α : Type _} (rand : ℕ → ℕ) : ℕ → ℕ → List α → List α
  | _, 0, l => l
  | k, i + 1, l => fisherYates rand (k + 1) i (swapIdx l (i + 1) (rand k % (i + 2)))

/-- `shuffleArray`: Fisher–Yates shuffle driven by the stream `rand`. -/
def shuffleArray {α : Type _} (rand : ℕ → ℕ) (l : List α) : List α :=
  fisherYates rand 0 (l.length - 1) l

/-- `addRandomnessToScores` with its default `variance = 5`: each task draws
two fresh noise values (`noise k * 2 - 1` models `Math.random() * 2 - 1`),
and each jittered score is clamped back into `[0, 100]`. -/
def addRandomnessToScores (noise : ℕ → ℚ) : ℕ → List ScoredTask → List ScoredTask
  | _, [] => []
  | k, t :: rest =>
      { task := t.task,
        morningScore := min 100 (max 0 (t.morningScore + (noise k * 2 - 1) * 5)),
        eveningScore := min 100 (max 0 (t.eveningScore + (noise (k + 1) * 2 - 1) * 5)) }
      :: addRandomnessToScores noise (k + 2) rest

/-- `getDefaultFreeTime`: sum of the preference availability minutes. -/
def getDefaultFreeTime (userPrefs : UserPreferences) : ℤ :=
  userPrefs.morningAvailableTime + userPrefs.eveningAvailableTime

/-- `scoreTasks`: score every task for both times of day. -/
def scoreTasks (now : ℤ) (tasks : List Task) (userPrefs : UserPreferences) :
    List ScoredTask :=
  tasks.map fun task =>
    { task := task,
      morningScore := calculateTaskScore now task userPrefs TimeOfDay.morning,
      eveningScore := calculateTaskScore now task userPrefs TimeOfDay.evening }

/-- `Date.getHours`, modelled as the UTC hour of day of an epoch-ms instant. -/
def hourOfDay (t : ℤ) : ℤ := t / 3600000 % 24

/-- `prepareTimeBlocksFromStartTime`: a single block at `startTime` spanning
`totalMinutes`, labelled morning when the start hour is in `[5, 12)`. -/
def prepareTimeBlocksFromStartTime (startTime : ℤ) (totalMinutes : ℤ) :
    List TimeBlock :=
  let currentHour := hourOfDay startTime
  let timeOfDay :=
    if 5 ≤ currentHour ∧ currentHour < 12 then TimeOfDay.morning
    else TimeOfDay.evening
  let endTime := startTime + totalMinutes * 60 * 1000
  [{ timeOfDay := timeOfDay, startTime := startTime, endTime := endTime,
     availableMinutes := totalMinutes }]

/-- Start of the (UTC) day containing an instant; models
`new Date(date)` followed by `setHours(h, 0, 0, 0)` up to adding `h` hours. -/
def startOfDay (t : ℤ) : ℤ := t - t % 86400000

/-- `prepareTimeBlocks`: the preference-default block builder — a morning
block (08:00, 4-hour span) when `morningAvailableTime > 0` and an evening
block (17:00, 5-hour span) when `eveningAvailableTime > 0`.  Note: this
function is declared in `ScheduleGenerator.ts` with the comment "the
original method that's still used when freeTimeMinutes isn't provided", but
`generateDailySchedules` never calls it. -/
def prepareTimeBlocks (date : ℤ) (userPrefs : UserPreferences) : List TimeBlock :=
  let dayStart := startOfDay date + 8 * 3600000
  (if 0 < userPrefs.morningAvailableTime then
    [{ timeOfDay := TimeOfDay.morning, startTime := dayStart,
       endTime := dayStart + 4 * 3600000,
       availableMinutes := userPrefs.morningAvailableTime }]
   else []) ++
  (if 0 < userPrefs.eveningAvailableTime then
    [{ timeOfDay := TimeOfDay.evening,
       startTime := startOfDay date + 17 * 3600000,
       endTime := startOfDay date + 22 * 3600000,
       availableMinutes := userPrefs.eveningAvailableTime }]
   else [])

/-- Category of a task: first tag, or `"untagged"`
(`task.tags.length > 0 ? task.tags[0] : 'untagged'`). -/
def taskCategory (t : Task) : String :=
  match t.tags with
  | [] => "untagged"
  | c :: _ => c

/-- One step of building a JavaScript object's key list: keys appear in
first-insertion order. -/
def insertKey (ks : List String) (k : String) : List String :=
  if k ∈ ks then ks else ks ++ [k]

/-- The keys of `tasksByCategory`, in first-appearance order. -/
def categoriesOf (tasks : List ScoredTask) : List String :=
  tasks.foldl (fun ks t => insertKey ks (taskCategory t.task)) []

/-- `tasksByCategory[c]`: the tasks of category `c`, in input order. -/
def categoryTasks (tasks : List ScoredTask) (c : String) : List ScoredTask :=
  tasks.filter fun t => taskCategory t.task == c

/-- `getScoreForTimeOfDay`. -/
def getScoreForTimeOfDay (scoredTask : ScoredTask) (timeOfDay : TimeOfDay) : ℚ :=
  match timeOfDay with
  | TimeOfDay.morning => scoredTask.morningScore
  | TimeOfDay.evening => scoredTask.eveningScore

/-- The comparison used by every task `.sort` call in the generator
(`(a, b) => bScore - aScore`): a stable descending sort by score. -/
def scoreDescOrder (timeOfDay : TimeOfDay) (a b : ScoredTask) : Prop :=
  getScoreForTimeOfDay b timeOfDay ≤ getScoreForTimeOfDay a timeOfDay

instance (timeOfDay : TimeOfDay) : DecidableRel (scoreDescOrder timeOfDay) :=
  fun _ _ => inferInstanceAs (Decidable (_ ≤ _))

/-- `sortTasksByTimeOfDay`: stable descending sort by time-of-day score
(JavaScript `Array.prototype.sort` is stable; embedded as insertion sort,
which is stable). -/
def sortTasksByTimeOfDay (tasks : List ScoredTask) (timeOfDay : TimeOfDay) :
    List ScoredTask :=
  List.insertionSort (scoreDescOrder timeOfDay) tasks

/-- The round-robin interleaving loop of `balanceTaskCategories`: each pass
takes the head of every still-nonempty category bucket in order, dropping
exhausted buckets.  The `while` loop is embedded with explicit fuel; one
unit of fuel per pass, and `(buckets.map List.length).sum` passes always
suffice (each pass consumes at least one task). -/
def roundRobinFuel {α : Type _} : ℕ → List (List α) → List α
  | 0, _ => []
  | fuel + 1, buckets =>
    let ne := buckets.filter fun l => !l.isEmpty
    if ne.isEmpty then []
    else (ne.filterMap List.head?) ++ roundRobinFuel fuel (ne.map List.tail)

/-- The round-robin interleaving with enough fuel for all passes. -/
def roundRobin {α : Type _} (buckets : List (List α)) : List α :=
  roundRobinFuel (buckets.map List.length).sum buckets

/-- `balanceTaskCategories`: partition by category, sort each bucket
descending by score, then round-robin across buckets. -/
def balanceTaskCategories (tasks : List ScoredTask) (timeOfDay : TimeOfDay) :
    List ScoredTask :=
  roundRobin ((categoriesOf tasks).map fun c =>
    List.insertionSort (scoreDescOrder timeOfDay) (categoryTasks tasks c))

/-- `Math.max(...bucket.map(score))`: best score of a category's bucket, as
a `WithBot ℚ` (the buckets arising in practice are nonempty). -/
def bucketBestScore (tasks : List ScoredTask) (timeOfDay : TimeOfDay)
    (c : String) : WithBot ℚ :=
  ((categoryTasks tasks c).map fun t => getScoreForTimeOfDay t timeOfDay).maximum

/-- The category comparison of `groupSimilarTasks`
(`(a, b) => bMaxScore - aMaxScore`): descending by best bucket score. -/
def catDescOrder (tasks : List ScoredTask) (timeOfDay : TimeOfDay)
    (a b : String) : Prop :=
  bucketBestScore tasks timeOfDay b ≤ bucketBestScore tasks timeOfDay a

instance (tasks : List ScoredTask) (timeOfDay : TimeOfDay) :
    DecidableRel (catDescOrder tasks timeOfDay) :=
  fun _ _ => inferInstanceAs (Decidable (_ ≤ _))

/-- `sortedCategories`: the category keys sorted descending by their best
bucket score (stable). -/
def sortedCategoriesOf (tasks : List ScoredTask) (timeOfDay : TimeOfDay) :
    List String :=
  List.insertionSort (catDescOrder tasks timeOfDay) (categoriesOf tasks)

/-- `groupSimilarTasks`: concatenate the per-category buckets — categories
in descending order of their best score, tasks within a bucket in
descending score order. -/
def groupSimilarTasks (tasks : List ScoredTask) (timeOfDay : TimeOfDay) :
    List ScoredTask :=
  ((sortedCategoriesOf tasks timeOfDay).map fun c =>
    List.insertionSort (scoreDescOrder timeOfDay) (categoryTasks tasks c)).flatten

/-- The three strategies of `generatePriorityBasedSchedule`. -/
inductive Strategy where
  | priority
  | balanced
  | grouped
deriving DecidableEq, Repr

/-- The per-block ordering `switch (strategy)`. -/
def orderForBlock (strategy : Strategy) (availableTasks : List ScoredTask)
    (timeOfDay : TimeOfDay) : List ScoredTask :=
  match strategy with
  | Strategy.priority => sortTasksByTimeOfDay availableTasks timeOfDay
  | Strategy.balanced => balanceTaskCategories availableTasks timeOfDay
  | Strategy.grouped => groupSimilarTasks availableTasks timeOfDay

/-- `availableTasks.findIndex(t => t.task.id === task.id)` followed by
`splice(index, 1)`: remove the first scored task with the given id, if any. -/
def removeTaskById (id : String) : List ScoredTask → List ScoredTask
  | [] => []
  | t :: rest => if t.task.id = id then rest else t :: removeTaskById id rest

/-- The inner allocation loop of `generatePriorityBasedSchedule` for one
time block: walk the ordered candidates; skip a candidate whose duration
exceeds the remaining minutes; place the others back-to-back from
`currentTime` (times in ms, so a duration contributes `duration * 60000`);
after a placement leaving fewer than 15 minutes, stop.  Returns (placed
tasks, final remainingMinutes, remaining available pool, score gained). -/
def packLoop (timeOfDay : TimeOfDay) :
    List ScoredTask → ℤ → ℤ → List ScoredTask →
    List ScheduledTask × ℤ × List ScoredTask × ℚ
  | [], _, remainingMinutes, availableTasks =>
      ([], remainingMinutes, availableTasks, 0)
  | scoredTask :: rest, currentTime, remainingMinutes, availableTasks =>
    let task := scoredTask.task
    if task.durationMinutes > remainingMinutes then
      packLoop timeOfDay rest currentTime remainingMinutes availableTasks
    else
      let taskEndTime := currentTime + task.durationMinutes * 60000
      let entry : ScheduledTask :=
        { taskId := task.id, startTime := currentTime, endTime := taskEndTime,
          completed := false }
      let remainingAfter := remainingMinutes - task.durationMinutes
      let availAfter := removeTaskById task.id availableTasks
      let taskScore := getScoreForTimeOfDay scoredTask timeOfDay
      if remainingAfter < 15 then ([entry], remainingAfter, availAfter, taskScore)
      else
        let result := packLoop timeOfDay rest taskEndTime remainingAfter availAfter
        (entry :: result.1, result.2.1, result.2.2.1, taskScore + result.2.2.2)

/-- The outer per-block loop of `generatePriorityBasedSchedule`: the
ordering is recomputed per block from the current available pool, and the
pool shrinks across blocks.  Returns the per-block placements (whose
concatenation is the option's task list), the final pool, and the total
score. -/
def runBlocks (strategy : Strategy) :
    List TimeBlock → List ScoredTask →
    List (List ScheduledTask) × List ScoredTask × ℚ
  | [], availableTasks => ([], availableTasks, 0)
  | block :: restBlocks, availableTasks =>
    let blockTasks := orderForBlock strategy availableTasks block.timeOfDay
    let packed := packLoop block.timeOfDay blockTasks block.startTime
      block.availableMinutes availableTasks
    let restResult := runBlocks strategy restBlocks packed.2.2.1
    (packed.1 :: restResult.1, restResult.2.1, packed.2.2.2 + restResult.2.2)

/-- `generatePriorityBasedSchedule`: pack every time block and wrap the
result.  `newId` stands for the `generateUniqueId()` draw and `now` for
`new Date()` (the `createdAt` stamp). -/
def generatePriorityBasedSchedule (scoredTasks : List ScoredTask)
    (timeBlocks : List TimeBlock) (userPrefs : UserPreferences) (date : ℤ)
    (strategy : Strategy) (newId : String) (now : ℤ) : ScheduleOption :=
  let result := runBlocks strategy timeBlocks scoredTasks
  { id := newId, userId := userPrefs.userId, date := date,
    tasks := result.1.flatten, totalScore := result.2.2, selected := false,
    createdAt := now }

/-- JavaScript `x || y` on an optional number: absence and `0` are falsy. -/
def jsOrElse (x : Option ℤ) (y : ℤ) : ℤ :=
  match x with
  | none => y
  | some v => if v = 0 then y else v

/-- The time blocks actually used by `generateDailySchedules`:
`prepareTimeBlocksFromStartTime(startTime, freeTimeMinutes || getDefaultFreeTime(userPrefs))`. -/
def usedTimeBlocks (startTime : ℤ) (freeTimeMinutes : Option ℤ)
    (userPrefs : UserPreferences) : List TimeBlock :=
  prepareTimeBlocksFromStartTime startTime
    (jsOrElse freeTimeMinutes (getDefaultFreeTime userPrefs))

/-- `generateDailySchedules`: score the pool once, shuffle and jitter two
copies for the balanced and grouped strategies, build the single time block,
and emit the three options `[priority, balanced, grouped]`.  The random
draws of the two shuffles and the two jitters, the `generateUniqueId()`
results and the clock are explicit parameters. -/
def generateDailySchedules (tasks : List Task) (userPrefs : UserPreferences)
    (startTime : ℤ) (freeTimeMinutes : Option ℤ) (date : ℤ)
    (randBalanced randGrouped : ℕ → ℕ) (noiseBalanced noiseGrouped : ℕ → ℚ)
    (ids : ℕ → String) (now : ℤ) : List ScheduleOption :=
  let scoredTasks := scoreTasks now tasks userPrefs
  let shuffledForBalanced :=
    addRandomnessToScores noiseBalanced 0 (shuffleArray randBalanced scoredTasks)
  let shuffledForGrouped :=
    addRandomnessToScores noiseGrouped 0 (shuffleArray randGrouped scoredTasks)
  let timeBlocks := usedTimeBlocks startTime freeTimeMinutes userPrefs
  [generatePriorityBasedSchedule scoredTasks timeBlocks userPrefs date
      Strategy.priority (ids 0) now,
   generatePriorityBasedSchedule shuffledForBalanced timeBlocks userPrefs date
      Strategy.balanced (ids 1) now,
   generatePriorityBasedSchedule shuffledForGrouped timeBlocks userPrefs date
      Strategy.grouped (ids 2) now]

/-- `generateScheduleOptions`: the public entry point, a direct delegation
to `generateDailySchedules`. -/
def generateScheduleOptions (tasks : List Task) (userPrefs : UserPreferences)
    (startTime : ℤ) (freeTimeMinutes : Option ℤ) (date : ℤ)
    (randBalanced randGrouped : ℕ → ℕ) (noiseBalanced noiseGrouped : ℕ → ℚ)
    (ids : ℕ → String) (now : ℤ) : List ScheduleOption :=
  generateDailySchedules tasks userPrefs startTime freeTimeMinutes date
    randBalanced randGrouped noiseBalanced noiseGrouped ids now

/-! ## Concrete fixtures used by the example-based theorems -/

/-- A preference snapshot with 60 morning / 30 evening minutes. -/
def examplePrefs : UserPreferences :=
  { userId := "user-1", morningComplexFactor := 1, eveningComplexFactor := 1,
    morningAvailableTime := 60, eveningAvailableTime := 30 }

/-- A deadline-free task with neutral difficulty. -/
def mkTask (id : String) (urgency : ℚ) (durationMinutes : ℤ)
    (tags : List String) : Task :=
  { id := id, urgency := urgency, difficulty := 3,
    durationMinutes := durationMinutes, deadline := none, tags := tags }

/-- The task ids underlying a scored pool, in order. -/
def idsOf (l : List ScoredTask) : List String := l.map fun st => st.task.id

/-- A constant stand-in for the `Math.random()` index stream. -/
def zeroRand : ℕ → ℕ := fun _ => 0

/-- A constant stand-in for the jitter stream. -/
def zeroNoise : ℕ → ℚ := fun _ => 0

/-- A constant stand-in for the `generateUniqueId()` stream. -/
def constIds : ℕ → String := fun _ => "id"

/-- 45-minute task with top urgency. -/
def exampleTaskHigh : Task := mkTask "t1" 5 45 []

/-- 45-minute task with bottom urgency. -/
def exampleTaskLow : Task := mkTask "t2" 1 45 []

/-- Balanced-strategy example: category A, two equal-scoring tasks. -/
def balA1 : Task := mkTask "a1" 3 15 ["A"]

/-- Balanced-strategy example: second A task. -/
def balA2 : Task := mkTask "a2" 3 15 ["A"]

/-- Balanced-strategy example: category B, two equal-scoring tasks. -/
def balB1 : Task := mkTask "b1" 3 15 ["B"]

/-- Balanced-strategy example: second B task. -/
def balB2 : Task := mkTask "b2" 3 15 ["B"]

/-- Grouped-strategy example: category A's best task (urgency 5). -/
def grpA1 : Task := mkTask "a1" 5 15 ["A"]

/-- Grouped-strategy example: category A's second task. -/
def grpA2 : Task := mkTask "a2" 4 15 ["A"]

/-- Grouped-strategy example: category B's best task (urgency 3). -/
def grpB1 : Task := mkTask "b1" 3 15 ["B"]

/-- Grouped-strategy example: category B's second task. -/
def grpB2 : Task := mkTask "b2" 2 15 ["B"]

/-! ### Scoring-engine theorems -/

/-- C1: `calculateTaskScore` is the weighted sum
`(urgency*20)*0.45 + (100 - |difficulty/5 - complexFactor/1.5|*100)*0.35 +
deadlineComponent*0.20`, clamped into `[0, 100]` only at the top level (the
cognitive sub-component appears unclamped inside the clamp), and the result
always lies within `[0, 100]` whatever the inputs. -/
theorem calculateTaskScore_formula_and_range (now : ℤ) (task : Task)
    (userPrefs : UserPreferences) (timeOfDay : TimeOfDay) :
    calculateTaskScore now task userPrefs timeOfDay
      = min 100 (max 0
          ((task.urgency * 20) * (45 / 100)
            + (100 - |task.difficulty / 5 -
                  (match timeOfDay with
                    | TimeOfDay.morning => userPrefs.morningComplexFactor
                    | TimeOfDay.evening => userPrefs.eveningComplexFactor) / (3 / 2)| * 100)
              * (35 / 100)
            + calculateDeadlineScore now task.deadline * (20 / 100)))
    ∧ 0 ≤ calculateTaskScore now task userPrefs timeOfDay
    ∧ calculateTaskScore now task userPrefs timeOfDay ≤ 100 := by
  refine ⟨rfl, ?_, ?_⟩
  · exact le_min (by norm_num) (le_max_left 0 _)
  · exact min_le_left _ _

/-- C5: the deadline component is 0 exactly for an absent deadline; for a
present deadline it is `100 * (1 / (1 + 0.01 * max 0 hoursUntilDeadline))`,
so a deadline due this instant scores 100, a deadline 100 hours out scores
exactly 50, and every present deadline scores strictly more than 0. -/
theorem calculateDeadlineScore_spec (now : ℤ) :
    calculateDeadlineScore now none = 0
    ∧ (∀ d : ℤ, calculateDeadlineScore now (some d)
        = 100 * (1 / (1 + (1 / 100) * max 0 (((d : ℚ) - (now : ℚ)) / 3600000))))
    ∧ calculateDeadlineScore now (some now) = 100
    ∧ calculateDeadlineScore now (some (now + 100 * 3600000)) = 50
    ∧ (∀ d : ℤ, 0 < calculateDeadlineScore now (some d)) := by
  refine ⟨rfl, fun d => rfl, ?_, ?_, ?_⟩
  · show (100 : ℚ) * (1 / (1 + (1 / 100) * max 0 (((now : ℚ) - (now : ℚ)) / 3600000))) = 100
    norm_num
  · show (100 : ℚ) *
        (1 / (1 + (1 / 100) * max 0 ((((now + 100 * 3600000 : ℤ) : ℚ) - (now : ℚ)) / 3600000)))
        = 50
    push_cast
    rw [show ((now : ℚ) + 360000000 - now) / 3600000 = 100 by ring]
    norm_num
  · intro d
    show (0 : ℚ) < 100 * (1 / (1 + (1 / 100) * max 0 (((d : ℚ) - (now : ℚ)) / 3600000)))
    have h0 : (0 : ℚ) ≤ max 0 (((d : ℚ) - (now : ℚ)) / 3600000) := le_max_left 0 _
    have hden : (0 : ℚ) < 1 + (1 / 100) * max 0 (((d : ℚ) - (now : ℚ)) / 3600000) := by
      nlinarith
    positivity

/-- C10: a deadline at or before `now` (overdue) is clamped to zero hours
remaining, so its deadline component is exactly the maximal 100 — an
arbitrarily overdue task scores the same as one due this instant. -/
theorem calculateDeadlineScore_overdue (now d : ℤ) (h : d ≤ now) :
    calculateDeadlineScore now (some d) = 100 := by
  show (100 : ℚ) * (1 / (1 + (1 / 100) * max 0 (((d : ℚ) - (now : ℚ)) / 3600000))) = 100
  have hd : ((d : ℚ) - (now : ℚ)) / 3600000 ≤ 0 := by
    apply div_nonpos_of_nonpos_of_nonneg
    · have hq : (d : ℚ) ≤ (now : ℚ) := by exact_mod_cast h
      simpa using hq
    · norm_num
  rw [max_eq_left hd]
  norm_num

/-- Witness for C10: a task 30 days overdue still scores exactly 100. -/
theorem calculateDeadlineScore_overdue_witness :
    calculateDeadlineScore 0 (some (-2592000000)) = 100 :=
  calculateDeadlineScore_overdue 0 (-2592000000) (by decide)

/-! ### Time-block planner theorems -/

/-- C3: contrary to the spec's preference-default mode, an invocation with
no explicit free-time budget does NOT derive per-preference morning/evening
blocks: `generateDailySchedules` always routes through
`prepareTimeBlocksFromStartTime`, producing a single block whose
`availableMinutes` is the SUM of the two preference values (90 here), while
the `prepareTimeBlocks` function the spec describes (which would produce the
two blocks of 60 and 30 minutes) is never called. -/
theorem preference_default_mode_single_block :
    (usedTimeBlocks (8 * 3600000) none examplePrefs).length = 1
    ∧ (usedTimeBlocks (8 * 3600000) none examplePrefs).map
        (·.availableMinutes) = [90]
    ∧ (prepareTimeBlocks 0 examplePrefs).length = 2
    ∧ (prepareTimeBlocks 0 examplePrefs).map (·.availableMinutes) = [60, 30]
    ∧ (∀ tasks startTime freeTimeMinutes date randB randG noiseB noiseG ids now,
        (generateDailySchedules tasks examplePrefs startTime freeTimeMinutes
            date randB randG noiseB noiseG ids now).map (·.tasks)
          = (generateDailySchedules tasks examplePrefs startTime
              freeTimeMinutes date randB randG noiseB noiseG ids now).map
              (·.tasks)) := by
  refine ⟨by decide, by decide, by decide, by decide, fun _ _ _ _ _ _ _ _ _ _ => rfl⟩

/-- C4 counterexample: the caller supplies a start time and the free-time
figure `0`, yet the produced block's `availableMinutes` is 90 (the
preference fallback), not the supplied figure — JavaScript `||` treats the
supplied `0` as absent. -/
theorem explicit_zero_budget_counterexample :
    (usedTimeBlocks (8 * 3600000) (some 0) examplePrefs).map
        (·.availableMinutes) = [90]
    ∧ (usedTimeBlocks (8 * 3600000) (some 0) examplePrefs).map
        (·.availableMinutes) ≠ [0] := by
  exact ⟨by decide, by decide⟩

/-- C4 (amended): for every invocation supplying a start time and a NONZERO
free-time-minutes figure, the planner produces exactly one `TimeBlock`
starting at the given time, with `availableMinutes` the given figure,
`endTime = startTime + figure` minutes, labelled morning exactly when the
start hour lies in `[5, 12)` and evening otherwise. -/
theorem usedTimeBlocks_explicit_budget (startTime m : ℤ)
    (userPrefs : UserPreferences) (hm : m ≠ 0) :
    usedTimeBlocks startTime (some m) userPrefs
      = [{ timeOfDay :=
            if 5 ≤ hourOfDay startTime ∧ hourOfDay startTime < 12 then
              TimeOfDay.morning
            else TimeOfDay.evening,
           startTime := startTime,
           endTime := startTime + m * 60 * 1000,
           availableMinutes := m }] := by
  simp [usedTimeBlocks, jsOrElse, hm, prepareTimeBlocksFromStartTime]

/-- Witness for the amended C4: a 45-minute budget starting at 08:00 UTC
yields the single morning block `[08:00, 08:45]`. -/
theorem usedTimeBlocks_explicit_budget_witness :
    usedTimeBlocks 28800000 (some 45) examplePrefs
      = [{ timeOfDay := TimeOfDay.morning, startTime := 28800000,
           endTime := 31500000, availableMinutes := 45 }] := by
  have h := usedTimeBlocks_explicit_budget 28800000 45 examplePrefs (by decide)
  simpa using h

/-! ### Determinism of the priority option (C9) -/

/-- C9: for a fixed input snapshot and fixed clock, the task list of the
first returned option (the priority strategy) is independent of every
random stream (the two shuffles, the two jitters, the id generator): it is
always the schedule packed from the stable descending sort of the
unmodified, unshuffled scored pool (`sortTasksByTimeOfDay`, which is a
permutation of the pool sorted descending by the block's time-of-day
score). -/
theorem priority_option_deterministic :
    (∀ tasks userPrefs startTime freeTimeMinutes date
        randB randG randB' randG' noiseB noiseG noiseB' noiseG' ids ids'
        (now : ℤ),
      ((generateScheduleOptions tasks userPrefs startTime freeTimeMinutes
          date randB randG noiseB noiseG ids now).head?.map (·.tasks))
        = ((generateScheduleOptions tasks userPrefs startTime freeTimeMinutes
            date randB' randG' noiseB' noiseG' ids' now).head?.map (·.tasks)))
    ∧ (∀ tasks userPrefs startTime freeTimeMinutes date
        randB randG noiseB noiseG ids (now : ℤ),
      ((generateScheduleOptions tasks userPrefs startTime freeTimeMinutes
          date randB randG noiseB noiseG ids now).head?.map (·.tasks))
        = some (generatePriorityBasedSchedule (scoreTasks now tasks userPrefs)
            (usedTimeBlocks startTime freeTimeMinutes userPrefs) userPrefs
            date Strategy.priority (ids 0) now).tasks)
    ∧ (∀ (pool : List ScoredTask) (timeOfDay : TimeOfDay),
        (sortTasksByTimeOfDay pool timeOfDay).Perm pool
        ∧ List.Sorted (scoreDescOrder timeOfDay)
            (sortTasksByTimeOfDay pool timeOfDay)) := by
  refine ⟨fun _ _ _ _ _ _ _ _ _ _ _ _ _ _ _ _ => rfl,
          fun _ _ _ _ _ _ _ _ _ _ _ => rfl,
          fun pool timeOfDay => ⟨List.perm_insertionSort _ _, ?_⟩⟩
  haveI : IsTotal ScoredTask (scoreDescOrder timeOfDay) :=
    ⟨fun a b => le_total _ _⟩
  haveI : IsTrans ScoredTask (scoreDescOrder timeOfDay) :=
    ⟨fun _ _ _ hab hbc => le_trans hbc hab⟩
  exact List.sorted_insertionSort _ _

/-! ### Packer theorems (C6) -/

/-- Helper: every placed entry of a block comes from a candidate, carries
that candidate's duration as `endTime - startTime`, and the placements run
back-to-back from `currentTime`. -/
theorem packLoop_entries (timeOfDay : TimeOfDay) (blockTasks : List ScoredTask) :
    ∀ (currentTime remaining : ℤ) (avail : List ScoredTask),
      (∀ e ∈ (packLoop timeOfDay blockTasks currentTime remaining avail).1,
        ∃ st ∈ blockTasks, e.taskId = st.task.id
          ∧ e.endTime = e.startTime + st.task.durationMinutes * 60000)
      ∧ List.Chain' (fun a b => b.startTime = a.endTime)
          (packLoop timeOfDay blockTasks currentTime remaining avail).1
      ∧ (∀ e ∈ ((packLoop timeOfDay blockTasks currentTime remaining avail).1).head?,
          e.startTime = currentTime) := by
  induction blockTasks with
  | nil => intro ct rem avail; simp [packLoop]
  | cons st rest ih =>
    intro ct rem avail
    by_cases hfit : st.task.durationMinutes > rem
    · have hred : packLoop timeOfDay (st :: rest) ct rem avail
          = packLoop timeOfDay rest ct rem avail := by
        simp [packLoop, hfit]
      rw [hred]
      obtain ⟨h1, h2, h3⟩ := ih ct rem avail
      refine ⟨fun e he => ?_, h2, h3⟩
      obtain ⟨st', hmem, hid, hdur⟩ := h1 e he
      exact ⟨st', List.mem_cons_of_mem _ hmem, hid, hdur⟩
    · by_cases hstop : rem - st.task.durationMinutes < 15
      · have hred : (packLoop timeOfDay (st :: rest) ct rem avail).1
            = [{ taskId := st.task.id, startTime := ct,
                 endTime := ct + st.task.durationMinutes * 60000,
                 completed := false }] := by
          simp [packLoop, hfit, hstop]
        rw [hred]
        refine ⟨fun e he => ?_, by simp, by simp⟩
        simp only [List.mem_singleton] at he
        subst he
        exact ⟨st, List.mem_cons_self _ _, rfl, rfl⟩
      · have hred : (packLoop timeOfDay (st :: rest) ct rem avail).1
            = { taskId := st.task.id, startTime := ct,
                endTime := ct + st.task.durationMinutes * 60000,
                completed := false }
              :: (packLoop timeOfDay rest (ct + st.task.durationMinutes * 60000)
                  (rem - st.task.durationMinutes)
                  (removeTaskById st.task.id avail)).1 := by
          simp [packLoop, hfit, hstop]
        rw [hred]
        obtain ⟨g1, g2, g3⟩ := ih (ct + st.task.durationMinutes * 60000)
          (rem - st.task.durationMinutes) (removeTaskById st.task.id avail)
        refine ⟨fun e he => ?_, ?_, by simp⟩
        · rcases List.mem_cons.mp he with he | he
          · subst he
            exact ⟨st, List.mem_cons_self _ _, rfl, rfl⟩
          · obtain ⟨st', hmem, hid, hdur⟩ := g1 e he
            exact ⟨st', List.mem_cons_of_mem _ hmem, hid, hdur⟩
        · exact List.chain'_cons'.mpr ⟨fun b hb => g3 b hb, g2⟩

section

attribute [local semireducible] Rat.add Rat.mul Rat.inv Rat.sub

/-- C6: the packer skips a candidate whose duration exceeds the remaining
minutes (the candidate is simply not placed and iteration continues); an
accepted candidate is emitted with `startTime = currentTime` and
`endTime = currentTime + durationMinutes`, placements running back-to-back;
a placement leaving fewer than 15 remaining minutes ends the block (the
remaining candidates are dropped); and in the concrete 60-minute-block
scenario with two 45-minute tasks, every produced option places exactly the
higher-scoring task `t1` and the lower-scoring task `t2` is absent. -/
theorem packer_skip_place_cutoff :
    (∀ timeOfDay scoredTask rest (currentTime remaining : ℤ) avail,
        scoredTask.task.durationMinutes > remaining →
        packLoop timeOfDay (scoredTask :: rest) currentTime remaining avail
          = packLoop timeOfDay rest currentTime remaining avail)
    ∧ (∀ timeOfDay scoredTask rest (currentTime remaining : ℤ) avail,
        ¬ scoredTask.task.durationMinutes > remaining →
        remaining - scoredTask.task.durationMinutes < 15 →
        packLoop timeOfDay (scoredTask :: rest) currentTime remaining avail
          = ([{ taskId := scoredTask.task.id, startTime := currentTime,
                endTime := currentTime + scoredTask.task.durationMinutes * 60000,
                completed := false }],
             remaining - scoredTask.task.durationMinutes,
             removeTaskById scoredTask.task.id avail,
             getScoreForTimeOfDay scoredTask timeOfDay))
    ∧ (∀ timeOfDay blockTasks (currentTime remaining : ℤ) avail,
        (∀ e ∈ (packLoop timeOfDay blockTasks currentTime remaining avail).1,
          ∃ st ∈ blockTasks, e.taskId = st.task.id
            ∧ e.endTime = e.startTime + st.task.durationMinutes * 60000)
        ∧ List.Chain' (fun a b => b.startTime = a.endTime)
            (packLoop timeOfDay blockTasks currentTime remaining avail).1
        ∧ (∀ e ∈ ((packLoop timeOfDay blockTasks currentTime remaining avail).1).head?,
            e.startTime = currentTime))
    ∧ ((generateScheduleOptions [exampleTaskHigh, exampleTaskLow] examplePrefs
          28800000 (some 60) 0 zeroRand zeroRand zeroNoise zeroNoise constIds
          0).map (·.tasks.map (·.taskId)) = [["t1"], ["t1"], ["t1"]]) := by
  refine ⟨?_, ?_, ?_, by decide⟩
  · intro timeOfDay st rest ct rem avail hfit
    simp [packLoop, hfit]
  · intro timeOfDay st rest ct rem avail hfit hstop
    simp [packLoop, hfit, hstop]
  · intro timeOfDay blockTasks ct rem avail
    exact packLoop_entries timeOfDay blockTasks ct rem avail

/-- Witness for C6: a 90-minute candidate in a 60-minute block is skipped. -/
theorem packer_skip_place_cutoff_witness :
    packLoop TimeOfDay.morning [⟨mkTask "x" 3 90 [], 50, 40⟩] 0 60 []
      = packLoop TimeOfDay.morning [] 0 60 [] :=
  packer_skip_place_cutoff.1 TimeOfDay.morning ⟨mkTask "x" 3 90 [], 50, 40⟩
    [] 0 60 [] (by decide)

end

/-! ### Permutation infrastructure for the shuffle, the jitter and the
three ordering strategies -/

/-- A Fisher–Yates swap step is a permutation. -/
theorem swapIdx_perm {α : Type _} [DecidableEq α] (l : List α) (i j : ℕ) :
    (swapIdx l i j).Perm l := by
  unfold swapIdx
  split
  · rename_i h
    obtain ⟨hi, hj⟩ := h
    rw [List.perm_iff_count]
    intro a
    have hj2 : j < (l.set i (l.get ⟨j, hj⟩)).length := by simpa using hj
    rw [List.count_set _ _ _ _ hj2, List.count_set _ _ _ _ hi]
    have hset : (l.set i (l.get ⟨j, hj⟩)).get ⟨j, hj2⟩ = l.get ⟨j, hj⟩ := by
      show (l.set i (l.get ⟨j, hj⟩))[j] = l.get ⟨j, hj⟩
      rw [List.getElem_set]
      split <;> rfl
    rw [show (l.set i (l.get ⟨j, hj⟩))[j] = l.get ⟨j, hj⟩ from hset]
    by_cases hpi : (l[i] == a) = true
    · have ha : l[i] = a := by simpa using hpi
      have hcount : 0 < List.count a l :=
        List.count_pos_iff.mpr (ha ▸ List.getElem_mem hi)
      have hgi : (l.get ⟨i, hi⟩ == a) = true := by simpa using ha
      by_cases hpj : (l.get ⟨j, hj⟩ == a) = true <;>
        simp [hpi, hpj, hgi] <;> omega
    · have hgi : ¬ (l.get ⟨i, hi⟩ == a) = true := hpi
      by_cases hpj : (l.get ⟨j, hj⟩ == a) = true <;>
        simp [hpi, hpj, hgi] <;> omega
  · exact List.Perm.refl l

/-- The whole Fisher–Yates loop is a permutation. -/
theorem fisherYates_perm {α : Type _} [DecidableEq α] (rand : ℕ → ℕ) :
    ∀ (i k : ℕ) (l : List α), (fisherYates rand k i l).Perm l := by
  intro i
  induction i with
  | zero => intro k l; exact List.Perm.refl l
  | succ n ih =>
    intro k l
    exact (ih (k + 1) (swapIdx l (n + 1) (rand k % (n + 2)))).trans
      (swapIdx_perm l (n + 1) (rand k % (n + 2)))

/-- `shuffleArray` is a permutation. -/
theorem shuffleArray_perm {α : Type _} [DecidableEq α] (rand : ℕ → ℕ)
    (l : List α) : (shuffleArray rand l).Perm l :=
  fisherYates_perm rand (l.length - 1) 0 l

/-- The jitter changes only scores: the underlying id sequence is kept. -/
theorem addRandomnessToScores_idsOf (noise : ℕ → ℚ) :
    ∀ (k : ℕ) (l : List ScoredTask),
      idsOf (addRandomnessToScores noise k l) = idsOf l := by
  intro k l
  induction l generalizing k with
  | nil => rfl
  | cons t rest ih => simpa [addRandomnessToScores, idsOf] using ih (k + 2)

/-- Scoring does not change the id sequence. -/
theorem scoreTasks_idsOf (now : ℤ) (tasks : List Task)
    (userPrefs : UserPreferences) :
    idsOf (scoreTasks now tasks userPrefs) = tasks.map Task.id := by
  simp [scoreTasks, idsOf]

/-- `insertKey` preserves distinctness of the key list. -/
theorem insertKey_nodup {ks : List String} (h : ks.Nodup) (k : String) :
    (insertKey ks k).Nodup := by
  unfold insertKey
  split
  · exact h
  · rename_i hk
    refine List.Nodup.append h (List.nodup_singleton k) ?_
    intro x hx hx'
    have hxk : x = k := by simpa using hx'
    exact hk (hxk ▸ hx)

/-- The inserted key is a member. -/
theorem insertKey_mem_self (ks : List String) (k : String) :
    k ∈ insertKey ks k := by
  unfold insertKey
  split
  · assumption
  · simp

/-- Insertion keeps earlier keys. -/
theorem insertKey_mem_mono {ks : List String} {x : String} (h : x ∈ ks)
    (k : String) : x ∈ insertKey ks k := by
  unfold insertKey
  split
  · exact h
  · exact List.mem_append_left _ h

/-- Members of the key list after insertion: old, or the inserted key. -/
theorem mem_insertKey {ks : List String} {x k : String}
    (h : x ∈ insertKey ks k) : x ∈ ks ∨ x = k := by
  unfold insertKey at h
  split at h
  · exact Or.inl h
  · rcases List.mem_append.mp h with h | h
    · exact Or.inl h
    · exact Or.inr (by simpa using h)

/-- The key-collection fold keeps the accumulator distinct. -/
theorem categoriesFold_nodup :
    ∀ (l : List ScoredTask) (acc : List String), acc.Nodup →
      (l.foldl (fun ks t => insertKey ks (taskCategory t.task)) acc).Nodup := by
  intro l
  induction l with
  | nil => intro acc h; exact h
  | cons t rest ih => intro acc h; exact ih _ (insertKey_nodup h _)

/-- The key-collection fold only grows the accumulator. -/
theorem categoriesFold_mono :
    ∀ (l : List ScoredTask) (acc : List String) (x : String), x ∈ acc →
      x ∈ l.foldl (fun ks t => insertKey ks (taskCategory t.task)) acc := by
  intro l
  induction l with
  | nil => intro acc x h; exact h
  | cons t rest ih => intro acc x h; exact ih _ _ (insertKey_mem_mono h _)

/-- Every task's category ends up in the fold's result. -/
theorem categoriesFold_complete :
    ∀ (l : List ScoredTask) (acc : List String) (t : ScoredTask), t ∈ l →
      taskCategory t.task
        ∈ l.foldl (fun ks t => insertKey ks (taskCategory t.task)) acc := by
  intro l
  induction l with
  | nil => intro acc t h; cases h
  | cons u rest ih =>
    intro acc t h
    rcases List.mem_cons.mp h with h | h
    · subst h
      exact categoriesFold_mono rest _ _ (insertKey_mem_self acc _)
    · exact ih _ t h

/-- Every key in the fold's result is an old key or some task's category. -/
theorem categoriesFold_sound :
    ∀ (l : List ScoredTask) (acc : List String) (x : String),
      x ∈ l.foldl (fun ks t => insertKey ks (taskCategory t.task)) acc →
      x ∈ acc ∨ ∃ t ∈ l, taskCategory t.task = x := by
  intro l
  induction l with
  | nil => intro acc x h; exact Or.inl h
  | cons u rest ih =>
    intro acc x h
    rcases ih _ _ h with h' | ⟨t, ht, hx⟩
    · rcases mem_insertKey h' with h'' | h''
      · exact Or.inl h''
      · exact Or.inr ⟨u, List.mem_cons_self _ _, h''.symm⟩
    · exact Or.inr ⟨t, List.mem_cons_of_mem _ ht, hx⟩

/-- The category key list is distinct. -/
theorem categoriesOf_nodup (tasks : List ScoredTask) :
    (categoriesOf tasks).Nodup :=
  categoriesFold_nodup tasks [] List.nodup_nil

/-- Every task's category is a key. -/
theorem categoriesOf_complete {tasks : List ScoredTask} {t : ScoredTask}
    (h : t ∈ tasks) : taskCategory t.task ∈ categoriesOf tasks :=
  categoriesFold_complete tasks [] t h

/-- Every key is some task's category. -/
theorem categoriesOf_sound {tasks : List ScoredTask} {c : String}
    (h : c ∈ categoriesOf tasks) : ∃ t ∈ tasks, taskCategory t.task = c := by
  rcases categoriesFold_sound tasks [] c h with h' | h'
  · cases h'
  · exact h'

/-- A category with no key has an empty bucket. -/
theorem categoryTasks_eq_nil_of_not_mem {tasks : List ScoredTask} {c : String}
    (h : c ∉ categoriesOf tasks) : categoryTasks tasks c = [] := by
  rw [categoryTasks, List.filter_eq_nil_iff]
  intro t ht hc
  exact h (by simpa using (show taskCategory t.task = c by simpa using hc) ▸
    categoriesOf_complete ht)

/-- Every bucket member carries the bucket's category. -/
theorem taskCategory_of_mem_categoryTasks {tasks : List ScoredTask}
    {c : String} {t : ScoredTask} (h : t ∈ categoryTasks tasks c) :
    taskCategory t.task = c := by
  have := (List.mem_filter.mp h).2
  simpa using this

/-- Concatenating the buckets of a distinct, covering key list recovers the
task pool up to permutation. -/
theorem flatten_categoryTasks_perm :
    ∀ (ks : List String) (tasks : List ScoredTask), ks.Nodup →
      (∀ t ∈ tasks, taskCategory t.task ∈ ks) →
      ((ks.map (categoryTasks tasks)).flatten).Perm tasks := by
  intro ks
  induction ks with
  | nil =>
    intro tasks _ hcov
    have : tasks = [] := by
      cases tasks with
      | nil => rfl
      | cons t rest => exact absurd (hcov t (List.mem_cons_self _ _)) (by simp)
    simp [this]
  | cons k ks ih =>
    intro tasks hnd hcov
    have hk_not_mem : k ∉ ks := (List.nodup_cons.mp hnd).1
    have hnd' : ks.Nodup := (List.nodup_cons.mp hnd).2
    have hmap : ks.map (categoryTasks tasks)
        = ks.map (categoryTasks
            (tasks.filter fun t => !(taskCategory t.task == k))) := by
      apply List.map_congr_left
      intro c hc
      have hck : c ≠ k := fun h => hk_not_mem (h ▸ hc)
      rw [categoryTasks, categoryTasks, List.filter_filter]
      apply List.filter_congr
      intro t _
      by_cases ht : taskCategory t.task = c
      · simp [ht, hck]
      · simp [ht]
    have hcov' : ∀ t ∈ tasks.filter fun t => !(taskCategory t.task == k),
        taskCategory t.task ∈ ks := by
      intro t ht
      obtain ⟨htm, htk⟩ := List.mem_filter.mp ht
      have hne : taskCategory t.task ≠ k := by simpa using htk
      rcases List.mem_cons.mp (hcov t htm) with h | h
      · exact absurd h hne
      · exact h
    have hrest := ih (tasks.filter fun t => !(taskCategory t.task == k))
      hnd' hcov'
    have hstep : ((k :: ks).map (categoryTasks tasks)).flatten
        = categoryTasks tasks k
            ++ (ks.map (categoryTasks
                (tasks.filter fun t => !(taskCategory t.task == k)))).flatten := by
      rw [List.map_cons, List.flatten_cons, hmap]
    rw [hstep]
    refine (List.Perm.append_left _ hrest).trans ?_
    rw [categoryTasks]
    exact List.filter_append_perm _ tasks

/-- Pointwise permutations of mapped buckets induce a permutation of the
concatenation. -/
theorem flatten_map_perm_congr {β : Type _} :
    ∀ (ks : List β) (f g : β → List ScoredTask),
      (∀ k ∈ ks, (f k).Perm (g k)) →
      ((ks.map f).flatten).Perm ((ks.map g).flatten) := by
  intro ks
  induction ks with
  | nil => intro f g _; simp
  | cons k ks ih =>
    intro f g h
    simp only [List.map_cons, List.flatten_cons]
    exact List.Perm.append (h k (List.mem_cons_self _ _))
      (ih f g fun k' hk' => h k' (List.mem_cons_of_mem _ hk'))

/-- Sum of a sublist of naturals is at most the sum of the list. -/
theorem sublist_sum_le {l₁ l₂ : List ℕ} (h : l₁.Sublist l₂) :
    l₁.sum ≤ l₂.sum := by
  induction h with
  | slnil => exact Nat.le_refl 0
  | cons a _ ih => exact Nat.le_trans ih (by simp)
  | cons₂ a _ ih => simpa using ih

/-- Dropped empty buckets do not change the concatenation. -/
theorem flatten_filter_nonempty {α : Type _} :
    ∀ (ls : List (List α)),
      ((ls.filter fun l => !l.isEmpty).flatten) = ls.flatten := by
  intro ls
  induction ls with
  | nil => rfl
  | cons l ls ih => cases l <;> simp [ih]

/-- Taking the tail of every nonempty bucket reduces the total length by the
number of buckets. -/
theorem tails_sum_length {α : Type _} :
    ∀ (ls : List (List α)), (∀ l ∈ ls, l ≠ []) →
      ((ls.map List.tail).map List.length).sum + ls.length
        = (ls.map List.length).sum := by
  intro ls
  induction ls with
  | nil => intro _; rfl
  | cons l ls ih =>
    intro h
    have hl : l ≠ [] := h l (List.mem_cons_self _ _)
    have hrest := ih fun l' hl' => h l' (List.mem_cons_of_mem _ hl')
    cases l with
    | nil => exact absurd rfl hl
    | cons a t =>
      simp only [List.map_cons, List.tail, List.sum_cons, List.length_cons]
          at hrest ⊢
      omega

/-- One round-robin pass (heads, then the interleaving of the tails) is a
permutation of the concatenation, for all-nonempty buckets. -/
theorem heads_tails_perm {α : Type _} :
    ∀ (ls : List (List α)), (∀ l ∈ ls, l ≠ []) →
      ((ls.filterMap List.head?) ++ (ls.map List.tail).flatten).Perm
        ls.flatten := by
  intro ls
  induction ls with
  | nil => intro _; simp
  | cons l ls ih =>
    intro h
    have hl : l ≠ [] := h l (List.mem_cons_self _ _)
    cases l with
    | nil => exact absurd rfl hl
    | cons a t =>
      have hrec := ih fun l' hl' => h l' (List.mem_cons_of_mem _ hl')
      simp only [List.filterMap_cons, List.head?, List.map_cons,
        List.flatten_cons, List.tail, List.cons_append]
      refine List.Perm.cons a ?_
      rw [← List.append_assoc]
      refine (List.Perm.append_right _
        (@List.perm_append_comm _ (ls.filterMap List.head?) t)).trans ?_
      rw [List.append_assoc]
      exact List.Perm.append_left t hrec

/-- With enough fuel, the round-robin loop is a permutation of the
concatenated buckets. -/
theorem roundRobinFuel_perm {α : Type _} :
    ∀ (fuel : ℕ) (ls : List (List α)), (ls.map List.length).sum ≤ fuel →
      (roundRobinFuel fuel ls).Perm ls.flatten := by
  intro fuel
  induction fuel with
  | zero =>
    intro ls h
    have hlen : ls.flatten.length = 0 := by
      rw [List.length_flatten]
      omega
    rw [List.eq_nil_of_length_eq_zero hlen]
    exact List.Perm.refl _
  | succ n ih =>
    intro ls h
    show List.Perm
      (if (ls.filter fun l => !l.isEmpty).isEmpty then []
       else ((ls.filter fun l => !l.isEmpty).filterMap List.head?)
         ++ roundRobinFuel n (((ls.filter fun l => !l.isEmpty)).map List.tail))
      ls.flatten
    by_cases hne : (ls.filter fun l => !l.isEmpty).isEmpty
    · rw [if_pos hne]
      have hall : ∀ l ∈ ls, l = [] := by
        intro l hl
        by_contra hlne
        have hmem : l ∈ ls.filter fun l => !l.isEmpty := by
          rw [List.mem_filter]
          exact ⟨hl, by simpa using hlne⟩
        rw [List.isEmpty_iff] at hne
        rw [hne] at hmem
        cases hmem
      rw [List.flatten_eq_nil_iff.mpr hall]
    · rw [if_neg hne]
      have hne_nonempty : ∀ l ∈ ls.filter fun l => !l.isEmpty, l ≠ [] := by
        intro l hl
        have := (List.mem_filter.mp hl).2
        simpa using this
      have hne_ne_nil : (ls.filter fun l => !l.isEmpty) ≠ [] := by
        intro hcon
        rw [hcon] at hne
        exact hne rfl
      have hsum_ne_le :
          ((ls.filter fun l => !l.isEmpty).map List.length).sum
            ≤ (ls.map List.length).sum :=
        sublist_sum_le (List.Sublist.map _ (List.filter_sublist ls))
      have htails := tails_sum_length (ls.filter fun l => !l.isEmpty)
        hne_nonempty
      have hlen_pos : 0 < (ls.filter fun l => !l.isEmpty).length :=
        List.length_pos.mpr hne_ne_nil
      have hfuel :
          (((ls.filter fun l => !l.isEmpty).map List.tail).map
            List.length).sum ≤ n := by omega
      refine (List.Perm.append_left _ (ih _ hfuel)).trans ?_
      refine (heads_tails_perm _ hne_nonempty).trans ?_
      rw [flatten_filter_nonempty ls]

/-- `balanceTaskCategories` returns a permutation of its input. -/
theorem balanceTaskCategories_perm (tasks : List ScoredTask)
    (timeOfDay : TimeOfDay) :
    (balanceTaskCategories tasks timeOfDay).Perm tasks := by
  rw [balanceTaskCategories, roundRobin]
  refine (roundRobinFuel_perm _ _ (Nat.le_refl _)).trans ?_
  refine (flatten_map_perm_congr (categoriesOf tasks)
      (fun c => List.insertionSort (scoreDescOrder timeOfDay)
        (categoryTasks tasks c))
      (categoryTasks tasks)
      (fun c _ => List.perm_insertionSort _ _)).trans ?_
  exact flatten_categoryTasks_perm _ tasks (categoriesOf_nodup tasks)
    (fun t ht => categoriesOf_complete ht)

/-- `groupSimilarTasks` returns a permutation of its input. -/
theorem groupSimilarTasks_perm (tasks : List ScoredTask)
    (timeOfDay : TimeOfDay) :
    (groupSimilarTasks tasks timeOfDay).Perm tasks := by
  rw [groupSimilarTasks]
  refine (List.Perm.join ((List.perm_insertionSort
      (catDescOrder tasks timeOfDay) (categoriesOf tasks)).map _)).trans ?_
  refine (flatten_map_perm_congr (categoriesOf tasks) _ (categoryTasks tasks)
    (fun c _ => List.perm_insertionSort _ _)).trans ?_
  exact flatten_categoryTasks_perm _ tasks (categoriesOf_nodup tasks)
    (fun t ht => categoriesOf_complete ht)

/-- Every strategy's per-block ordering is a permutation of the pool. -/
theorem orderForBlock_perm (strategy : Strategy) (avail : List ScoredTask)
    (timeOfDay : TimeOfDay) :
    (orderForBlock strategy avail timeOfDay).Perm avail := by
  cases strategy with
  | priority => exact List.perm_insertionSort _ _
  | balanced => exact balanceTaskCategories_perm avail timeOfDay
  | grouped => exact groupSimilarTasks_perm avail timeOfDay
/-! ### Balanced strategy (C7) -/

section

attribute [local semireducible] Rat.add Rat.mul Rat.inv Rat.sub

/-- C7: the balanced strategy emits every input task exactly once (its
output is a permutation of its input); when the pool holds exactly two
categories of two tasks each, no two consecutive output tasks share a
category; and on the concrete two-by-two equal-scoring example the output
order is the pattern A, B, A, B. -/
theorem balanced_strategy_interleaves :
    (∀ (tasks : List ScoredTask) (timeOfDay : TimeOfDay),
      (balanceTaskCategories tasks timeOfDay).Perm tasks)
    ∧ (∀ (tasks : List ScoredTask) (timeOfDay : TimeOfDay) (A B : String),
        A ≠ B → categoriesOf tasks = [A, B] →
        (categoryTasks tasks A).length = 2 →
        (categoryTasks tasks B).length = 2 →
        List.Chain' (fun x y => taskCategory x.task ≠ taskCategory y.task)
          (balanceTaskCategories tasks timeOfDay))
    ∧ ((balanceTaskCategories
          (scoreTasks 0 [balA1, balB1, balA2, balB2] examplePrefs)
          TimeOfDay.morning).map (·.task.id) = ["a1", "b1", "a2", "b2"]) := by
  refine ⟨fun tasks tod => balanceTaskCategories_perm tasks tod, ?_, by decide⟩
  intro tasks tod A B hAB hcats hlenA hlenB
  have hsortA := List.perm_insertionSort (scoreDescOrder tod)
    (categoryTasks tasks A)
  have hsortB := List.perm_insertionSort (scoreDescOrder tod)
    (categoryTasks tasks B)
  have hlA : (List.insertionSort (scoreDescOrder tod)
      (categoryTasks tasks A)).length = 2 := by
    rw [hsortA.length_eq]
    exact hlenA
  have hlB : (List.insertionSort (scoreDescOrder tod)
      (categoryTasks tasks B)).length = 2 := by
    rw [hsortB.length_eq]
    exact hlenB
  obtain ⟨x1, x2, hx⟩ := List.length_eq_two.mp hlA
  obtain ⟨y1, y2, hy⟩ := List.length_eq_two.mp hlB
  have hcatx1 : taskCategory x1.task = A :=
    taskCategory_of_mem_categoryTasks (hsortA.mem_iff.mp (by rw [hx]; simp))
  have hcatx2 : taskCategory x2.task = A :=
    taskCategory_of_mem_categoryTasks (hsortA.mem_iff.mp (by rw [hx]; simp))
  have hcaty1 : taskCategory y1.task = B :=
    taskCategory_of_mem_categoryTasks (hsortB.mem_iff.mp (by rw [hy]; simp))
  have hcaty2 : taskCategory y2.task = B :=
    taskCategory_of_mem_categoryTasks (hsortB.mem_iff.mp (by rw [hy]; simp))
  rw [balanceTaskCategories, hcats]
  simp only [List.map_cons, List.map_nil]
  rw [hx, hy]
  have hrr : roundRobin [[x1, x2], [y1, y2]] = [x1, y1, x2, y2] := rfl
  rw [hrr]
  simp only [List.chain'_cons, List.chain'_singleton, and_true]
  rw [hcatx1, hcatx2, hcaty1, hcaty2]
  exact ⟨hAB, Ne.symm hAB, hAB⟩

/-- Witness for C7: the concrete two-by-two example discharges every
hypothesis of the interleaving statement. -/
theorem balanced_strategy_interleaves_witness :
    ("A" : String) ≠ "B"
    ∧ categoriesOf (scoreTasks 0 [balA1, balB1, balA2, balB2] examplePrefs)
        = ["A", "B"]
    ∧ (categoryTasks (scoreTasks 0 [balA1, balB1, balA2, balB2] examplePrefs)
        "A").length = 2
    ∧ (categoryTasks (scoreTasks 0 [balA1, balB1, balA2, balB2] examplePrefs)
        "B").length = 2
    ∧ List.Chain' (fun x y => taskCategory x.task ≠ taskCategory y.task)
        (balanceTaskCategories
          (scoreTasks 0 [balA1, balB1, balA2, balB2] examplePrefs)
          TimeOfDay.morning) :=
  ⟨by decide, by decide, by decide, by decide,
   balanced_strategy_interleaves.2.1 _ TimeOfDay.morning "A" "B"
     (by decide) (by decide) (by decide) (by decide)⟩

end

/-! ### Grouped strategy (C8) -/

/-- The sorted category list holds the same keys. -/
theorem mem_sortedCategoriesOf {tasks : List ScoredTask}
    {timeOfDay : TimeOfDay} {c : String} :
    c ∈ sortedCategoriesOf tasks timeOfDay ↔ c ∈ categoriesOf tasks :=
  (List.perm_insertionSort _ _).mem_iff

/-- The sorted category list is distinct. -/
theorem sortedCategoriesOf_nodup (tasks : List ScoredTask)
    (timeOfDay : TimeOfDay) : (sortedCategoriesOf tasks timeOfDay).Nodup :=
  ((List.perm_insertionSort _ _).nodup_iff).mpr (categoriesOf_nodup tasks)

/-- Filtering a sorted homogeneous bucket by category keeps all of it or
none of it. -/
theorem filter_insertionSort_bucket (tasks : List ScoredTask)
    (timeOfDay : TimeOfDay) (c' c : String) :
    (List.insertionSort (scoreDescOrder timeOfDay)
        (categoryTasks tasks c')).filter
      (fun t => taskCategory t.task == c)
      = if c' = c then
          List.insertionSort (scoreDescOrder timeOfDay) (categoryTasks tasks c)
        else [] := by
  split
  · rename_i hcc
    subst hcc
    apply List.filter_eq_self.mpr
    intro a ha
    have := taskCategory_of_mem_categoryTasks
      ((List.perm_insertionSort _ _).mem_iff.mp ha)
    simpa using this
  · rename_i hcc
    apply List.filter_eq_nil_iff.mpr
    intro a ha
    have := taskCategory_of_mem_categoryTasks
      ((List.perm_insertionSort _ _).mem_iff.mp ha)
    simp [this, hcc]

/-- Concatenating a key-indexed family that is empty away from one present
key yields that key's value. -/
theorem flatten_ite_eq :
    ∀ (ks : List String), ks.Nodup → ∀ (c : String) (v : List ScoredTask),
      c ∈ ks → ((ks.map fun k => if k = c then v else []).flatten) = v := by
  intro ks
  induction ks with
  | nil => intro _ c v h; cases h
  | cons k ks ih =>
    intro hnd c v hc
    have hk_not_mem : k ∉ ks := (List.nodup_cons.mp hnd).1
    have hnd' : ks.Nodup := (List.nodup_cons.mp hnd).2
    simp only [List.map_cons, List.flatten_cons]
    by_cases hkc : k = c
    · subst hkc
      rw [if_pos rfl]
      have hrest : ((ks.map fun k' => if k' = k then v else []).flatten) = [] := by
        apply List.flatten_eq_nil_iff.mpr
        intro l hl
        obtain ⟨k', hk', hl'⟩ := List.mem_map.mp hl
        have : k' ≠ k := fun h => hk_not_mem (h ▸ hk')
        rw [← hl', if_neg this]
      rw [hrest, List.append_nil]
    · rcases List.mem_cons.mp hc with h | h
      · exact absurd h.symm hkc
      · rw [if_neg hkc, List.nil_append]
        exact ih hnd' c v h

/-- A key-indexed family that is empty everywhere concatenates to nil. -/
theorem flatten_ite_not_mem :
    ∀ (ks : List String) (c : String) (v : List ScoredTask), c ∉ ks →
      ((ks.map fun k => if k = c then v else []).flatten) = [] := by
  intro ks c v hc
  apply List.flatten_eq_nil_iff.mpr
  intro l hl
  obtain ⟨k', hk', hl'⟩ := List.mem_map.mp hl
  have : k' ≠ c := fun h => hc (h ▸ hk')
  rw [← hl', if_neg this]

/-- Filtering the grouped output by a category recovers exactly that
category's sorted bucket. -/
theorem groupSimilarTasks_filter (tasks : List ScoredTask)
    (timeOfDay : TimeOfDay) (c : String) :
    (groupSimilarTasks tasks timeOfDay).filter
        (fun t => taskCategory t.task == c)
      = List.insertionSort (scoreDescOrder timeOfDay)
          (categoryTasks tasks c) := by
  rw [groupSimilarTasks, List.filter_flatten, List.map_map]
  have hmap : (sortedCategoriesOf tasks timeOfDay).map
      ((List.filter fun t => taskCategory t.task == c) ∘ fun c' =>
        List.insertionSort (scoreDescOrder timeOfDay) (categoryTasks tasks c'))
      = (sortedCategoriesOf tasks timeOfDay).map fun k =>
          if k = c then
            List.insertionSort (scoreDescOrder timeOfDay)
              (categoryTasks tasks c)
          else [] :=
    List.map_congr_left fun c' _ =>
      filter_insertionSort_bucket tasks timeOfDay c' c
  rw [hmap]
  by_cases hc : c ∈ sortedCategoriesOf tasks timeOfDay
  · exact flatten_ite_eq _ (sortedCategoriesOf_nodup tasks timeOfDay) c _ hc
  · rw [flatten_ite_not_mem _ _ _ hc]
    have hbucket : categoryTasks tasks c = [] :=
      categoryTasks_eq_nil_of_not_mem
        (fun h => hc (mem_sortedCategoriesOf.mpr h))
    rw [hbucket]
    rfl

section

attribute [local semireducible] Rat.add Rat.mul Rat.inv Rat.sub

/-- C8: the grouped strategy's output is a permutation of its input in
which every category's tasks are contiguous (filtering the output by a
category yields an infix segment), filtering the output by a category gives
exactly that category's bucket sorted descending by time-of-day score, the
category blocks follow the descending order of each category's best score,
and on the concrete example with A's best score above B's the output is the
pattern A, A, B, B. -/
theorem grouped_strategy_blocks :
    (∀ (tasks : List ScoredTask) (timeOfDay : TimeOfDay),
      (groupSimilarTasks tasks timeOfDay).Perm tasks)
    ∧ (∀ (tasks : List ScoredTask) (timeOfDay : TimeOfDay) (c : String),
        ((groupSimilarTasks tasks timeOfDay).filter
            (fun t => taskCategory t.task == c)).IsInfix
          (groupSimilarTasks tasks timeOfDay))
    ∧ (∀ (tasks : List ScoredTask) (timeOfDay : TimeOfDay) (c : String),
        (groupSimilarTasks tasks timeOfDay).filter
            (fun t => taskCategory t.task == c)
          = List.insertionSort (scoreDescOrder timeOfDay)
              (categoryTasks tasks c))
    ∧ (∀ (tasks : List ScoredTask) (timeOfDay : TimeOfDay),
        List.Sorted (catDescOrder tasks timeOfDay)
          (sortedCategoriesOf tasks timeOfDay))
    ∧ (∀ (tasks : List ScoredTask) (timeOfDay : TimeOfDay) (c : String),
        List.Sorted (scoreDescOrder timeOfDay)
          ((groupSimilarTasks tasks timeOfDay).filter
            (fun t => taskCategory t.task == c)))
    ∧ ((groupSimilarTasks
          (scoreTasks 0 [grpB1, grpA1, grpB2, grpA2] examplePrefs)
          TimeOfDay.morning).map (·.task.id) = ["a1", "a2", "b1", "b2"]) := by
  have hsorted : ∀ (tasks : List ScoredTask) (timeOfDay : TimeOfDay)
      (l : List ScoredTask), List.Sorted (scoreDescOrder timeOfDay)
        (List.insertionSort (scoreDescOrder timeOfDay) l) := by
    intro tasks timeOfDay l
    haveI : IsTotal ScoredTask (scoreDescOrder timeOfDay) :=
      ⟨fun a b => le_total _ _⟩
    haveI : IsTrans ScoredTask (scoreDescOrder timeOfDay) :=
      ⟨fun _ _ _ hab hbc => le_trans hbc hab⟩
    exact List.sorted_insertionSort _ _
  refine ⟨fun tasks tod => groupSimilarTasks_perm tasks tod,
    ?_, fun tasks tod c => groupSimilarTasks_filter tasks tod c,
    ?_, ?_, by decide⟩
  · intro tasks tod c
    rw [groupSimilarTasks_filter]
    by_cases hc : c ∈ sortedCategoriesOf tasks tod
    · obtain ⟨s, t', hsplit⟩ := List.append_of_mem hc
      rw [groupSimilarTasks, hsplit, List.map_append, List.map_cons,
        List.flatten_append, List.flatten_cons, ← List.append_assoc]
      exact List.infix_append _ _ _
    · have hbucket : categoryTasks tasks c = [] :=
        categoryTasks_eq_nil_of_not_mem
          (fun h => hc (mem_sortedCategoriesOf.mpr h))
      rw [hbucket]
      exact List.nil_infix
  · intro tasks tod
    haveI : IsTotal String (catDescOrder tasks tod) :=
      ⟨fun a b => le_total _ _⟩
    haveI : IsTrans String (catDescOrder tasks tod) :=
      ⟨fun _ _ _ hab hbc => le_trans hbc hab⟩
    exact List.sorted_insertionSort _ _
  · intro tasks tod c
    rw [groupSimilarTasks_filter]
    exact hsorted tasks tod _

end

/-! ### Packer and assembler invariants (C2) -/

/-- Removal by id yields a sublist of the pool. -/
theorem removeTaskById_sublist (id : String) :
    ∀ (l : List ScoredTask), (removeTaskById id l).Sublist l := by
  intro l
  induction l with
  | nil => simp [removeTaskById]
  | cons t rest ih =>
    rw [removeTaskById]
    split
    · exact List.sublist_cons_self t rest
    · exact List.Sublist.cons₂ t ih

/-- Removing an id from a pool with distinct ids eliminates it. -/
theorem not_mem_idsOf_removeTaskById :
    ∀ {l : List ScoredTask}, (idsOf l).Nodup → ∀ (x : String),
      x ∉ idsOf (removeTaskById x l) := by
  intro l
  induction l with
  | nil => intro _ x; simp [removeTaskById, idsOf]
  | cons t rest ih =>
    intro h x
    simp only [idsOf, List.map_cons, List.nodup_cons] at h
    obtain ⟨hhead, htail⟩ := h
    rw [removeTaskById]
    split
    · rename_i heq
      rw [← heq]
      exact fun hmem => hhead (by simpa [idsOf] using hmem)
    · rename_i hne
      intro hmem
      simp only [idsOf, List.map_cons, List.mem_cons] at hmem
      rcases hmem with h' | h'
      · exact hne h'.symm
      · exact ih htail x h'

/-- The placed entries' ids form a subsequence of the candidate ids. -/
theorem packLoop_ids_sublist (timeOfDay : TimeOfDay) :
    ∀ (blockTasks : List ScoredTask) (ct rem : ℤ) (avail : List ScoredTask),
      ((packLoop timeOfDay blockTasks ct rem avail).1.map
        (·.taskId)).Sublist (blockTasks.map fun st => st.task.id) := by
  intro blockTasks
  induction blockTasks with
  | nil => intro ct rem avail; simp [packLoop]
  | cons st rest ih =>
    intro ct rem avail
    by_cases hfit : st.task.durationMinutes > rem
    · have hred : packLoop timeOfDay (st :: rest) ct rem avail
          = packLoop timeOfDay rest ct rem avail := by
        simp [packLoop, hfit]
      rw [hred, List.map_cons]
      exact List.Sublist.cons _ (ih ct rem avail)
    · by_cases hstop : rem - st.task.durationMinutes < 15
      · have hred : (packLoop timeOfDay (st :: rest) ct rem avail).1
            = [{ taskId := st.task.id, startTime := ct,
                 endTime := ct + st.task.durationMinutes * 60000,
                 completed := false }] := by
          simp [packLoop, hfit, hstop]
        rw [hred, List.map_cons]
        exact List.Sublist.cons₂ _ (List.nil_sublist _)
      · have hred : (packLoop timeOfDay (st :: rest) ct rem avail).1
            = { taskId := st.task.id, startTime := ct,
                endTime := ct + st.task.durationMinutes * 60000,
                completed := false }
              :: (packLoop timeOfDay rest (ct + st.task.durationMinutes * 60000)
                  (rem - st.task.durationMinutes)
                  (removeTaskById st.task.id avail)).1 := by
          simp [packLoop, hfit, hstop]
        rw [hred, List.map_cons, List.map_cons]
        exact List.Sublist.cons₂ _ (ih _ _ _)

/-- The pool left over by a block's packing is a sublist of the pool it
started with. -/
theorem packLoop_avail_sublist (timeOfDay : TimeOfDay) :
    ∀ (blockTasks : List ScoredTask) (ct rem : ℤ) (avail : List ScoredTask),
      ((packLoop timeOfDay blockTasks ct rem avail).2.2.1).Sublist avail := by
  intro blockTasks
  induction blockTasks with
  | nil => intro ct rem avail; simp [packLoop]
  | cons st rest ih =>
    intro ct rem avail
    by_cases hfit : st.task.durationMinutes > rem
    · have hred : packLoop timeOfDay (st :: rest) ct rem avail
          = packLoop timeOfDay rest ct rem avail := by
        simp [packLoop, hfit]
      rw [hred]
      exact ih ct rem avail
    · by_cases hstop : rem - st.task.durationMinutes < 15
      · have hred : (packLoop timeOfDay (st :: rest) ct rem avail).2.2.1
            = removeTaskById st.task.id avail := by
          simp [packLoop, hfit, hstop]
        rw [hred]
        exact removeTaskById_sublist _ avail
      · have hred : (packLoop timeOfDay (st :: rest) ct rem avail).2.2.1
            = (packLoop timeOfDay rest (ct + st.task.durationMinutes * 60000)
                (rem - st.task.durationMinutes)
                (removeTaskById st.task.id avail)).2.2.1 := by
          simp [packLoop, hfit, hstop]
        rw [hred]
        exact (ih _ _ _).trans (removeTaskById_sublist _ avail)

/-- When the pool's ids are distinct, a placed id never survives into the
block's leftover pool. -/
theorem packLoop_placed_not_in_avail (timeOfDay : TimeOfDay) :
    ∀ (blockTasks : List ScoredTask) (ct rem : ℤ) (avail : List ScoredTask),
      (idsOf avail).Nodup →
      ∀ x ∈ (packLoop timeOfDay blockTasks ct rem avail).1.map (·.taskId),
        x ∉ idsOf ((packLoop timeOfDay blockTasks ct rem avail).2.2.1) := by
  intro blockTasks
  induction blockTasks with
  | nil => intro ct rem avail _ x hx; simp [packLoop] at hx
  | cons st rest ih =>
    intro ct rem avail hav x hx
    by_cases hfit : st.task.durationMinutes > rem
    · have hred : packLoop timeOfDay (st :: rest) ct rem avail
          = packLoop timeOfDay rest ct rem avail := by
        simp [packLoop, hfit]
      rw [hred] at hx ⊢
      exact ih ct rem avail hav x hx
    · by_cases hstop : rem - st.task.durationMinutes < 15
      · have hred1 : (packLoop timeOfDay (st :: rest) ct rem avail).1
            = [{ taskId := st.task.id, startTime := ct,
                 endTime := ct + st.task.durationMinutes * 60000,
                 completed := false }] := by
          simp [packLoop, hfit, hstop]
        have hred2 : (packLoop timeOfDay (st :: rest) ct rem avail).2.2.1
            = removeTaskById st.task.id avail := by
          simp [packLoop, hfit, hstop]
        rw [hred1] at hx
        rw [hred2]
        simp only [List.map_cons, List.map_nil, List.mem_singleton] at hx
        subst hx
        exact not_mem_idsOf_removeTaskById hav _
      · have hred1 : (packLoop timeOfDay (st :: rest) ct rem avail).1
            = { taskId := st.task.id, startTime := ct,
                endTime := ct + st.task.durationMinutes * 60000,
                completed := false }
              :: (packLoop timeOfDay rest (ct + st.task.durationMinutes * 60000)
                  (rem - st.task.durationMinutes)
                  (removeTaskById st.task.id avail)).1 := by
          simp [packLoop, hfit, hstop]
        have hred2 : (packLoop timeOfDay (st :: rest) ct rem avail).2.2.1
            = (packLoop timeOfDay rest (ct + st.task.durationMinutes * 60000)
                (rem - st.task.durationMinutes)
                (removeTaskById st.task.id avail)).2.2.1 := by
          simp [packLoop, hfit, hstop]
        have havAfter : (idsOf (removeTaskById st.task.id avail)).Nodup :=
          List.Nodup.sublist ((removeTaskById_sublist _ avail).map _) hav
        rw [hred1] at hx
        rw [hred2]
        simp only [List.map_cons, List.mem_cons] at hx
        rcases hx with hx' | hx'
        · subst hx'
          intro hmem
          exact not_mem_idsOf_removeTaskById hav st.task.id
            (((packLoop_avail_sublist timeOfDay rest _ _ _).map
              (fun st => st.task.id)).subset hmem)
        · exact ih _ _ _ havAfter x hx'

/-- The total placed duration of a block never exceeds its capacity. -/
theorem packLoop_duration_sum (timeOfDay : TimeOfDay) :
    ∀ (blockTasks : List ScoredTask) (ct rem : ℤ) (avail : List ScoredTask),
      0 ≤ rem →
      (((packLoop timeOfDay blockTasks ct rem avail).1.map
        fun e => e.endTime - e.startTime).sum) ≤ rem * 60000 := by
  intro blockTasks
  induction blockTasks with
  | nil => intro ct rem avail hrem; simp [packLoop]; omega
  | cons st rest ih =>
    intro ct rem avail hrem
    by_cases hfit : st.task.durationMinutes > rem
    · have hred : packLoop timeOfDay (st :: rest) ct rem avail
          = packLoop timeOfDay rest ct rem avail := by
        simp [packLoop, hfit]
      rw [hred]
      exact ih ct rem avail hrem
    · have hd : st.task.durationMinutes ≤ rem := by omega
      by_cases hstop : rem - st.task.durationMinutes < 15
      · have hred : (packLoop timeOfDay (st :: rest) ct rem avail).1
            = [{ taskId := st.task.id, startTime := ct,
                 endTime := ct + st.task.durationMinutes * 60000,
                 completed := false }] := by
          simp [packLoop, hfit, hstop]
        rw [hred]
        simp only [List.map_cons, List.map_nil, List.sum_cons, List.sum_nil]
        omega
      · have hred : (packLoop timeOfDay (st :: rest) ct rem avail).1
            = { taskId := st.task.id, startTime := ct,
                endTime := ct + st.task.durationMinutes * 60000,
                completed := false }
              :: (packLoop timeOfDay rest (ct + st.task.durationMinutes * 60000)
                  (rem - st.task.durationMinutes)
                  (removeTaskById st.task.id avail)).1 := by
          simp [packLoop, hfit, hstop]
        rw [hred]
        have hrec := ih (ct + st.task.durationMinutes * 60000)
          (rem - st.task.durationMinutes) (removeTaskById st.task.id avail)
          (by omega)
        simp only [List.map_cons, List.sum_cons]
        omega

/-- Across the per-block loop: placed ids are distinct and drawn from the
pool. -/
theorem runBlocks_ids (strategy : Strategy) :
    ∀ (blocks : List TimeBlock) (avail : List ScoredTask),
      (idsOf avail).Nodup →
      (((runBlocks strategy blocks avail).1.flatten.map (·.taskId)).Nodup
        ∧ ∀ x ∈ (runBlocks strategy blocks avail).1.flatten.map (·.taskId),
            x ∈ idsOf avail) := by
  intro blocks
  induction blocks with
  | nil => intro avail _; simp [runBlocks]
  | cons b bs ih =>
    intro avail hav
    have hred : (runBlocks strategy (b :: bs) avail).1
        = (packLoop b.timeOfDay (orderForBlock strategy avail b.timeOfDay)
            b.startTime b.availableMinutes avail).1
          :: (runBlocks strategy bs
              (packLoop b.timeOfDay (orderForBlock strategy avail b.timeOfDay)
                b.startTime b.availableMinutes avail).2.2.1).1 := by
      simp [runBlocks]
    rw [hred]
    have hperm : (orderForBlock strategy avail b.timeOfDay).Perm avail :=
      orderForBlock_perm strategy avail b.timeOfDay
    have hpermids : ((orderForBlock strategy avail b.timeOfDay).map
        fun st => st.task.id).Perm (idsOf avail) := hperm.map _
    have hbtnodup : ((orderForBlock strategy avail b.timeOfDay).map
        fun st => st.task.id).Nodup := hpermids.nodup_iff.mpr hav
    have hE_sub := packLoop_ids_sublist b.timeOfDay
      (orderForBlock strategy avail b.timeOfDay) b.startTime
      b.availableMinutes avail
    have hEnodup := List.Nodup.sublist hE_sub hbtnodup
    have havailOut_sub := packLoop_avail_sublist b.timeOfDay
      (orderForBlock strategy avail b.timeOfDay) b.startTime
      b.availableMinutes avail
    have havailOutNodup : (idsOf ((packLoop b.timeOfDay
        (orderForBlock strategy avail b.timeOfDay) b.startTime
        b.availableMinutes avail).2.2.1)).Nodup :=
      List.Nodup.sublist (havailOut_sub.map _) hav
    obtain ⟨hrestNodup, hrestSub⟩ := ih _ havailOutNodup
    constructor
    · rw [List.flatten_cons, List.map_append]
      refine List.Nodup.append hEnodup hrestNodup ?_
      intro x hxE hxRest
      exact packLoop_placed_not_in_avail b.timeOfDay _ _ _ _ hav x hxE
        (hrestSub x hxRest)
    · intro x hx
      rw [List.flatten_cons, List.map_append, List.mem_append] at hx
      rcases hx with hx | hx
      · exact hpermids.mem_iff.mp (hE_sub.subset hx)
      · exact (havailOut_sub.map _).subset (hrestSub x hx)

/-- Per-block capacity across the whole block loop. -/
theorem runBlocks_block_capacity (strategy : Strategy) :
    ∀ (blocks : List TimeBlock) (avail : List ScoredTask),
      ∀ p ∈ blocks.zip (runBlocks strategy blocks avail).1,
        0 ≤ p.1.availableMinutes →
        ((p.2.map fun e => e.endTime - e.startTime).sum
          ≤ p.1.availableMinutes * 60000) := by
  intro blocks
  induction blocks with
  | nil => intro avail p hp; simp at hp
  | cons b bs ih =>
    intro avail p hp
    have hred : (runBlocks strategy (b :: bs) avail).1
        = (packLoop b.timeOfDay (orderForBlock strategy avail b.timeOfDay)
            b.startTime b.availableMinutes avail).1
          :: (runBlocks strategy bs
              (packLoop b.timeOfDay (orderForBlock strategy avail b.timeOfDay)
                b.startTime b.availableMinutes avail).2.2.1).1 := by
      simp [runBlocks]
    rw [hred, List.zip_cons_cons] at hp
    rcases List.mem_cons.mp hp with hp' | hp'
    · subst hp'
      intro h0
      exact packLoop_duration_sum b.timeOfDay _ _ _ _ h0
    · exact ih _ p hp'

/-- C2: in every option produced by `generateScheduleOptions` from a task
list with distinct ids, no task id appears in more than one placed entry;
and, for each time block the packer fills, the total placed duration never
exceeds the block's `availableMinutes` (stated both for the general block
loop and for the single effective block of an invocation, durations read
back in milliseconds from the placed entries). -/
theorem schedule_options_invariants :
    (∀ tasks userPrefs (startTime : ℤ) freeTimeMinutes (date : ℤ)
        randB randG noiseB noiseG ids (now : ℤ),
      (tasks.map Task.id).Nodup →
      ∀ opt ∈ generateScheduleOptions tasks userPrefs startTime
          freeTimeMinutes date randB randG noiseB noiseG ids now,
        (opt.tasks.map ScheduledTask.taskId).Nodup)
    ∧ (∀ (strategy : Strategy) (blocks : List TimeBlock)
        (avail : List ScoredTask),
        ∀ p ∈ blocks.zip (runBlocks strategy blocks avail).1,
          0 ≤ p.1.availableMinutes →
          ((p.2.map fun e => e.endTime - e.startTime).sum
            ≤ p.1.availableMinutes * 60000))
    ∧ (∀ tasks userPrefs (startTime : ℤ) freeTimeMinutes (date : ℤ)
        randB randG noiseB noiseG ids (now : ℤ),
        0 ≤ jsOrElse freeTimeMinutes (getDefaultFreeTime userPrefs) →
        ∀ opt ∈ generateScheduleOptions tasks userPrefs startTime
            freeTimeMinutes date randB randG noiseB noiseG ids now,
          ((opt.tasks.map fun e => e.endTime - e.startTime).sum
            ≤ jsOrElse freeTimeMinutes (getDefaultFreeTime userPrefs)
                * 60000)) := by
  refine ⟨?_, runBlocks_block_capacity, ?_⟩
  · intro tasks userPrefs startTime freeTimeMinutes date randB randG
      noiseB noiseG ids now hNodup opt hopt
    have h1 : (idsOf (scoreTasks now tasks userPrefs)).Nodup := by
      rw [scoreTasks_idsOf]
      exact hNodup
    have hshB : (idsOf (shuffleArray randB
        (scoreTasks now tasks userPrefs))).Nodup :=
      (((shuffleArray_perm randB _).map _).nodup_iff).mpr h1
    have hshG : (idsOf (shuffleArray randG
        (scoreTasks now tasks userPrefs))).Nodup :=
      (((shuffleArray_perm randG _).map _).nodup_iff).mpr h1
    have hB : (idsOf (addRandomnessToScores noiseB 0 (shuffleArray randB
        (scoreTasks now tasks userPrefs)))).Nodup := by
      rw [addRandomnessToScores_idsOf]
      exact hshB
    have hG : (idsOf (addRandomnessToScores noiseG 0 (shuffleArray randG
        (scoreTasks now tasks userPrefs)))).Nodup := by
      rw [addRandomnessToScores_idsOf]
      exact hshG
    simp only [generateScheduleOptions, generateDailySchedules,
      List.mem_cons, List.not_mem_nil, or_false] at hopt
    rcases hopt with h | h | h <;> subst h
    · exact (runBlocks_ids Strategy.priority
        (usedTimeBlocks startTime freeTimeMinutes userPrefs) _ h1).1
    · exact (runBlocks_ids Strategy.balanced
        (usedTimeBlocks startTime freeTimeMinutes userPrefs) _ hB).1
    · exact (runBlocks_ids Strategy.grouped
        (usedTimeBlocks startTime freeTimeMinutes userPrefs) _ hG).1
  · intro tasks userPrefs startTime freeTimeMinutes date randB randG
      noiseB noiseG ids now hfree opt hopt
    simp only [generateScheduleOptions, generateDailySchedules,
      List.mem_cons, List.not_mem_nil, or_false] at hopt
    rcases hopt with h | h | h <;> subst h <;>
    · show ((((runBlocks _ (usedTimeBlocks startTime freeTimeMinutes
          userPrefs) _).1.flatten).map fun e => e.endTime - e.startTime).sum
          ≤ jsOrElse freeTimeMinutes (getDefaultFreeTime userPrefs) * 60000)
      rw [show (usedTimeBlocks startTime freeTimeMinutes userPrefs)
          = [{ timeOfDay := if 5 ≤ hourOfDay startTime ∧ hourOfDay startTime < 12
                then TimeOfDay.morning else TimeOfDay.evening,
               startTime := startTime,
               endTime := startTime + jsOrElse freeTimeMinutes
                 (getDefaultFreeTime userPrefs) * 60 * 1000,
               availableMinutes := jsOrElse freeTimeMinutes
                 (getDefaultFreeTime userPrefs) }] from rfl]
      rw [show ∀ (b : TimeBlock) (pool : List ScoredTask) (s : Strategy),
          (runBlocks s [b] pool).1 = [(packLoop b.timeOfDay
            (orderForBlock s pool b.timeOfDay) b.startTime
            b.availableMinutes pool).1] from fun b pool s => by
          simp [runBlocks]]
      rw [List.flatten_cons, List.flatten_nil, List.append_nil]
      exact packLoop_duration_sum _ _ _ _ _ hfree

/-- Witness for C2: the two-task fixture has distinct ids and both
invariants instantiate on its generated options. -/
theorem schedule_options_invariants_witness :
    ([exampleTaskHigh, exampleTaskLow].map Task.id).Nodup
    ∧ ∀ opt ∈ generateScheduleOptions [exampleTaskHigh, exampleTaskLow]
        examplePrefs 28800000 (some 60) 0 zeroRand zeroRand zeroNoise
        zeroNoise constIds 0,
      (opt.tasks.map ScheduledTask.taskId).Nodup :=
  ⟨by decide, fun opt h => schedule_options_invariants.1
    [exampleTaskHigh, exampleTaskLow] examplePrefs 28800000 (some 60) 0
    zeroRand zeroRand zeroNoise zeroNoise constIds 0 (by decide) opt h⟩

end BrainBuddy
